import Mathlib

/-!
Verification of the semantic memory store of the Adam_AI repository.

This file is a shallow embedding of the memory subsystem implemented in
`BASE/memory_methods/memory_manager.py`, `BASE/memory_methods/memory_manipulation.py`
and `BASE/memory_methods/summarizer.py`, together with theorems settling the
specification claims about it.

Modelling conventions:
* Python floats become real numbers (`ℝ`); exact small rationals that the code
  only ever compares (keyword-count confidences) become `ℚ`.
* Calendar dates (`datetime.date` values compared with `<` / `>=`) become a day
  index `Date := ℤ` in the fixed UTC reference timezone; `datetime.now().date()`
  is the parameter `today`/`now`.
* Python dicts with known keys become structures; `d.get(key, default)` becomes
  `field.getD default`.
* Calls to the external Ollama endpoints (embedding and text generation) are
  network I/O and are modelled as function parameters returning `Option`
  (`none` = transport failure / missing field), exactly as the call sites
  observe them.
* The `strptime`/`fromisoformat` library attempts inside
  `_parse_human_datetime` are modelled abstractly by a parameter
  `tryParse : String → Option Date` (`none` = every format failed); the
  fallback branch `except: return datetime.now(timezone.utc)` is kept
  explicitly, since it is what the parsing claims are about.
-/

/-- Calendar date in the fixed UTC reference timezone, as a day index
(order-isomorphic to Python `datetime.date` under `<`, `≤`). -/
abbrev Date := Int

/-- A raw conversation entry as persisted in `memory.json`:
`{"role": ..., "content": ..., "timestamp": ...}` with a human-readable
timestamp string. -/
structure Entry where
  role : String
  content : String
  timestamp : String
deriving DecidableEq

/-- The metadata dict attached to an embedded record.  Every key the code
reads with `metadata.get(key, default)` is an optional field here. -/
structure Metadata where
  entry_type : Option String := none
  source_type : Option String := none
  conversation_date : Option Date := none
  entries_count : Option Nat := none
  summary_date : Option String := none
  created_by : Option String := none
  chunk_type : Option String := none
  context_path : Option String := none
  keywords : List String := []
  section_level : Option Int := none
deriving DecidableEq

/-- An embedded record (a daily summary in `embeddings_data` or a
base-knowledge chunk in `base_embeddings`):
`{"text": ..., "embedding": [...], "metadata": {...}, "timestamp": ...}`. -/
structure EmbItem where
  text : String
  embedding : List ℝ
  metadata : Metadata := {}
  timestamp : String := ""

/-- The in-memory state of `MemoryManager`: the raw conversation log
`self.memory`, the daily-summary embeddings `self.embeddings_data` and the
base-knowledge embeddings `self.base_embeddings`. -/
structure MMState where
  memory : List Entry := []
  embeddings_data : List EmbItem := []
  base_embeddings : List EmbItem := []

/-- `MemoryManager._parse_human_datetime` (identical in all three source
files): try the five `strptime` formats and `fromisoformat` — modelled by
`tryParse` — and on total failure fall back to `datetime.now(timezone.utc)`,
whose date is `now`.  The function always returns a datetime; it never raises
and never signals failure to its caller. -/
def parse_human_datetime (tryParse : String → Option Date) (now : Date) (s : String) : Date :=
  (tryParse s).getD now

/-! ### Cosine similarity (`MemoryManager._cosine_similarity`) -/

/-- `np.dot` on two 1-D float vectors of equal length (pointwise product sum). -/
def dotp (a b : List ℝ) : ℝ := (List.zipWith (· * ·) a b).sum

/-- `np.linalg.norm`: the Euclidean norm `sqrt (dot v v)`. -/
noncomputable def norml (v : List ℝ) : ℝ := Real.sqrt (dotp v v)

/-- `MemoryManager._cosine_similarity(vec1, vec2)` (identical in
`memory_manager.py` and `memory_manipulation.py`):
`dot(a,b) / (norm(a)*norm(b))`, returning `0.0` when either norm is zero.
`np.dot` raises `ValueError` on mismatched 1-D shapes, which the surrounding
`except` turns into a returned `0.0`; that is the first branch. -/
noncomputable def cosine_similarity (a b : List ℝ) : ℝ :=
  if a.length ≠ b.length then 0
  else if norml a = 0 ∨ norml b = 0 then 0
  else dotp a b / (norml a * norml b)

theorem dotp_comm (a b : List ℝ) : dotp a b = dotp b a := by
  unfold dotp
  rw [List.zipWith_comm_of_comm (· * ·) mul_comm]

theorem dotp_self_nonneg (a : List ℝ) : 0 ≤ dotp a a := by
  induction a with
  | nil => simp [dotp]
  | cons x xs ih =>
    have hx : 0 ≤ x * x := mul_self_nonneg x
    simpa [dotp, List.zipWith, List.sum_cons] using add_nonneg hx (by simpa [dotp] using ih)

theorem norml_nonneg (a : List ℝ) : 0 ≤ norml a := Real.sqrt_nonneg _

theorem dotp_eq_sum_range :
    ∀ (a b : List ℝ), a.length = b.length →
      dotp a b = ∑ i ∈ Finset.range a.length, a.getD i 0 * b.getD i 0 := by
  intro a
  induction a with
  | nil =>
    intro b _
    simp [dotp]
  | cons x xs ih =>
    intro b hb
    cases b with
    | nil => simp at hb
    | cons y ys =>
      have hlen : xs.length = ys.length := by simpa using hb
      have hsum :
          ∑ i ∈ Finset.range (xs.length + 1),
              (x :: xs).getD i 0 * (y :: ys).getD i 0
            = (∑ i ∈ Finset.range xs.length, xs.getD i 0 * ys.getD i 0) + x * y := by
        rw [Finset.sum_range_succ']
        simp
      simp only [List.length_cons, hsum]
      have : dotp (x :: xs) (y :: ys) = x * y + dotp xs ys := by
        simp [dotp, List.zipWith]
      rw [this, ih ys hlen]
      ring

/-- Cauchy–Schwarz for the list dot product, at equal lengths. -/
theorem dotp_sq_le (a b : List ℝ) (h : a.length = b.length) :
    dotp a b ^ 2 ≤ dotp a a * dotp b b := by
  have ha : dotp a a = ∑ i ∈ Finset.range a.length, a.getD i 0 ^ 2 := by
    rw [dotp_eq_sum_range a a rfl]
    exact Finset.sum_congr rfl fun i _ => (sq (a.getD i 0)).symm
  have hbb : dotp b b = ∑ i ∈ Finset.range a.length, b.getD i 0 ^ 2 := by
    rw [dotp_eq_sum_range b b rfl, h]
    exact Finset.sum_congr rfl fun i _ => (sq (b.getD i 0)).symm
  rw [dotp_eq_sum_range a b h, ha, hbb]
  exact Finset.sum_mul_sq_le_sq_mul_sq (Finset.range a.length)
    (fun i => a.getD i 0) (fun i => b.getD i 0)

theorem abs_dotp_le (a b : List ℝ) (h : a.length = b.length) :
    |dotp a b| ≤ norml a * norml b := by
  have h2 := dotp_sq_le a b h
  have hnn : 0 ≤ dotp a a * dotp b b :=
    mul_nonneg (dotp_self_nonneg a) (dotp_self_nonneg b)
  have habs : |dotp a b| = Real.sqrt (dotp a b ^ 2) := by
    rw [Real.sqrt_sq_eq_abs]
  rw [habs]
  calc Real.sqrt (dotp a b ^ 2) ≤ Real.sqrt (dotp a a * dotp b b) :=
        Real.sqrt_le_sqrt h2
    _ = norml a * norml b := by
        rw [norml, norml, Real.sqrt_mul (dotp_self_nonneg a)]

theorem cosine_similarity_comm (a b : List ℝ) :
    cosine_similarity a b = cosine_similarity b a := by
  unfold cosine_similarity
  by_cases hlen : a.length = b.length
  · rw [if_neg (by omega : ¬a.length ≠ b.length),
      if_neg (by omega : ¬b.length ≠ a.length)]
    by_cases hn : norml a = 0 ∨ norml b = 0
    · rw [if_pos hn, if_pos hn.symm]
    · rw [if_neg hn, if_neg fun h => hn h.symm, dotp_comm, mul_comm]
  · rw [if_pos (by omega : a.length ≠ b.length),
      if_pos (by omega : b.length ≠ a.length)]

theorem abs_cosine_similarity_le_one (a b : List ℝ) : |cosine_similarity a b| ≤ 1 := by
  unfold cosine_similarity
  by_cases hlen : a.length = b.length
  · rw [if_neg (by omega : ¬a.length ≠ b.length)]
    by_cases hn : norml a = 0 ∨ norml b = 0
    · simp [hn]
    · rw [if_neg hn]
      push_neg at hn
      have hna : 0 < norml a := lt_of_le_of_ne (norml_nonneg a) (Ne.symm hn.1)
      have hnb : 0 < norml b := lt_of_le_of_ne (norml_nonneg b) (Ne.symm hn.2)
      have hpos : 0 < norml a * norml b := mul_pos hna hnb
      rw [abs_div, abs_of_pos hpos, div_le_one hpos]
      exact abs_dotp_le a b hlen
  · simp [if_pos (by omega : a.length ≠ b.length)]

theorem cosine_similarity_zero_left (a b : List ℝ) (h : norml a = 0) :
    cosine_similarity a b = 0 := by
  unfold cosine_similarity
  by_cases hlen : a.length = b.length
  · rw [if_neg (by omega : ¬a.length ≠ b.length), if_pos (Or.inl h)]
  · rw [if_pos (by omega : a.length ≠ b.length)]

theorem cosine_similarity_self (v : List ℝ) (h : norml v ≠ 0) :
    cosine_similarity v v = 1 := by
  have hd : dotp v v ≠ 0 := by
    intro h0
    exact h (by rw [norml, h0, Real.sqrt_zero])
  unfold cosine_similarity
  rw [if_neg (by omega : ¬v.length ≠ v.length), if_neg (by tauto : ¬(norml v = 0 ∨ norml v = 0))]
  rw [norml, Real.mul_self_sqrt (dotp_self_nonneg v)]
  exact div_eq_one_iff_eq hd |>.mpr rfl

/-- C7: Cosine similarity properties.  `_cosine_similarity` equals
`dot(a,b)/(norm(a)*norm(b))` whenever both norms are nonzero (on matching
shapes), is symmetric, always lies in `[-1, 1]`, returns `0` for a zero-norm
vector without raising, and every vector of nonzero norm has self-similarity
exactly `1` (hence `≈ 1.0` within any floating tolerance). -/
theorem cosine_similarity_spec :
    (∀ a b : List ℝ, cosine_similarity a b = cosine_similarity b a) ∧
    (∀ a b : List ℝ, -1 ≤ cosine_similarity a b ∧ cosine_similarity a b ≤ 1) ∧
    (∀ a b : List ℝ, norml a = 0 → cosine_similarity a b = 0) ∧
    (∀ a b : List ℝ, a.length = b.length → norml a ≠ 0 → norml b ≠ 0 →
      cosine_similarity a b = dotp a b / (norml a * norml b)) ∧
    (∀ v : List ℝ, norml v ≠ 0 → cosine_similarity v v = 1) := by
  refine ⟨cosine_similarity_comm, ?_, cosine_similarity_zero_left, ?_, cosine_similarity_self⟩
  · intro a b
    exact abs_le.mp (abs_cosine_similarity_le_one a b)
  · intro a b hlen hna hnb
    unfold cosine_similarity
    rw [if_neg (by omega : ¬a.length ≠ b.length), if_neg (by tauto : ¬(norml a = 0 ∨ norml b = 0))]

/-- C7 witness: the properties with hypotheses, instantiated at concrete
vectors: `[1,0]` has nonzero norm and self-similarity `1`; `[0]` has zero
norm and similarity `0` against `[5]`; `[1,0]`/`[0,1]` have the nonzero-norm
quotient form. -/
theorem cosine_similarity_spec_witness :
    norml [(1 : ℝ), 0] ≠ 0 ∧
    cosine_similarity [(1 : ℝ), 0] [(1 : ℝ), 0] = 1 ∧
    norml [(0 : ℝ)] = 0 ∧
    cosine_similarity [(0 : ℝ)] [(5 : ℝ)] = 0 ∧
    cosine_similarity [(1 : ℝ), 0] [(0 : ℝ), 1]
      = dotp [(1 : ℝ), 0] [(0 : ℝ), 1] / (norml [(1 : ℝ), 0] * norml [(0 : ℝ), 1]) := by
  have h1 : dotp [(1 : ℝ), 0] [(1 : ℝ), 0] = 1 := by simp [dotp]
  have h2 : dotp [(0 : ℝ), 1] [(0 : ℝ), 1] = 1 := by simp [dotp]
  have hn1 : norml [(1 : ℝ), 0] ≠ 0 := by
    rw [norml, h1, Real.sqrt_one]; exact one_ne_zero
  have hn2 : norml [(0 : ℝ), 1] ≠ 0 := by
    rw [norml, h2, Real.sqrt_one]; exact one_ne_zero
  have hz : norml [(0 : ℝ)] = 0 := by
    have : dotp [(0 : ℝ)] [(0 : ℝ)] = 0 := by simp [dotp]
    rw [norml, this, Real.sqrt_zero]
  exact ⟨hn1, cosine_similarity_spec.2.2.2.2 _ hn1, hz,
    cosine_similarity_spec.2.2.1 _ [(5 : ℝ)] hz,
    cosine_similarity_spec.2.2.2.1 _ _ (by simp) hn1 hn2⟩

/-! ### Query intent classification (`MemoryManager._classify_query_intent`,
`memory_manipulation.py`) -/

/-- Python `str.lower()` (ASCII-relevant part), as a per-character map. -/
def lower_str (s : String) : String := ⟨s.data.map Char.toLower⟩

/-- Character-list prefix test (`needle` starts `hay`). -/
def chars_startsWith : List Char → List Char → Bool
  | [], _ => true
  | _ :: _, [] => false
  | n :: ns, h :: hs => n == h && chars_startsWith ns hs

/-- Character-list infix test (`needle` occurs somewhere in `hay`). -/
def chars_infix (needle : List Char) : List Char → Bool
  | [] => needle.isEmpty
  | h :: hs => chars_startsWith needle (h :: hs) || chars_infix needle hs

/-- Python substring test `needle in hay` on strings. -/
def str_contains (hay needle : String) : Bool := chars_infix needle.data hay.data

/-- `self.minecraft_context_patterns`: the category → keyword-list mapping, in
dict insertion order. -/
def minecraft_context_patterns : List (String × List String) :=
  [("combat", ["fight", "mob", "attack", "defend", "weapon", "armor", "zombie",
    "skeleton", "creeper", "spider", "enderman"]),
   ("crafting", ["craft", "recipe", "make", "build", "create", "furnace", "table", "smelt"]),
   ("mining", ["mine", "dig", "ore", "cave", "underground", "pickaxe", "stone",
    "iron", "diamond", "coal"]),
   ("farming", ["farm", "grow", "crop", "plant", "food", "wheat", "carrot",
    "potato", "breed", "animal"]),
   ("building", ["build", "construct", "house", "shelter", "wall", "roof", "door", "block"]),
   ("survival", ["hunger", "health", "eat", "sleep", "bed", "day", "night", "spawn"]),
   ("exploration", ["explore", "travel", "find", "locate", "biome", "village", "structure"]),
   ("progression", ["upgrade", "advance", "tier", "better", "improve", "next", "goal"])]

/-- The per-category confidence of the claim: (number of the category's
keywords present in the lowercased text) / (size of the category's keyword
set), as computed by `score / len(keywords)` in the code. -/
def category_score (query : String) (kws : List String) : ℚ :=
  ((kws.countP fun kw => str_contains (lower_str query) kw : ℕ) : ℚ) / ((kws.length : ℕ) : ℚ)

/-- True when no category has any keyword present in the lowercased text
(the `if not scores` branch of the code). -/
def no_category_matches (query : String) : Bool :=
  minecraft_context_patterns.all fun p =>
    (p.2.countP fun kw => str_contains (lower_str query) kw) == 0

/-- The local `scores` dict of `_classify_query_intent`: for each category,
in dict insertion order, the normalized score `score / len(keywords)` — kept
only when the raw keyword count is positive. -/
def intent_scores (query : String) : List (String × ℚ) :=
  minecraft_context_patterns.filterMap fun p =>
    if 0 < (p.2.countP fun kw => str_contains (lower_str query) kw) then
      some (p.1, category_score query p.2)
    else none

/-- `MemoryManager._classify_query_intent(query)`: build the dict of nonzero
normalized scores in pattern order, return `("general", 0.0)` if it is empty,
otherwise the first entry of maximal score (`max(scores, key=...)` keeps the
first maximum) with its confidence. -/
def classify_query_intent (query : String) : String × ℚ :=
  match intent_scores query with
  | [] => ("general", 0)
  | s :: rest => rest.foldl (fun best q => if best.2 < q.2 then q else best) s

theorem foldl_pick_mem (s : String × ℚ) (rest : List (String × ℚ)) :
    rest.foldl (fun best q => if best.2 < q.2 then q else best) s ∈ s :: rest := by
  induction rest generalizing s with
  | nil => simp
  | cons r t ih =>
    have h := ih (if s.2 < r.2 then r else s)
    simp only [List.foldl_cons]
    rcases List.mem_cons.mp h with h1 | h1
    · rw [h1]
      by_cases hc : s.2 < r.2
      · simp [hc]
      · simp [hc]
    · exact List.mem_cons.mpr (Or.inr (List.mem_cons.mpr (Or.inr h1)))

theorem foldl_pick_ge (s : String × ℚ) (rest : List (String × ℚ)) :
    ∀ x ∈ s :: rest,
      x.2 ≤ (rest.foldl (fun best q => if best.2 < q.2 then q else best) s).2 := by
  induction rest generalizing s with
  | nil =>
    intro x hx
    simp only [List.mem_singleton] at hx
    exact hx ▸ le_refl _
  | cons r t ih =>
    intro x hx
    simp only [List.foldl_cons]
    have hs : s.2 ≤ (if s.2 < r.2 then r else s).2 := by
      by_cases hc : s.2 < r.2
      · rw [if_pos hc]; exact le_of_lt hc
      · rw [if_neg hc]
    have hr : r.2 ≤ (if s.2 < r.2 then r else s).2 := by
      by_cases hc : s.2 < r.2
      · rw [if_pos hc]
      · rw [if_neg hc]; exact le_of_not_lt hc
    rcases List.mem_cons.mp hx with h1 | h1
    · subst h1
      exact le_trans hs (ih _ _ (List.mem_cons_self _ _))
    · rcases List.mem_cons.mp h1 with h2 | h2
      · subst h2
        exact le_trans hr (ih _ _ (List.mem_cons_self _ _))
      · exact ih _ _ (List.mem_cons.mpr (Or.inr h2))

theorem intent_scores_eq_nil (q : String) :
    intent_scores q = [] ↔ no_category_matches q = true := by
  unfold intent_scores no_category_matches
  rw [List.filterMap_eq_nil_iff, List.all_eq_true]
  constructor
  · intro h p hp
    have := h p hp
    by_cases hc : 0 < (p.2.countP fun kw => str_contains (lower_str q) kw)
    · rw [if_pos hc] at this
      exact absurd this (by simp)
    · simpa using Nat.eq_zero_of_not_pos hc
  · intro h p hp
    have h0 : (p.2.countP fun kw => str_contains (lower_str q) kw) = 0 := by
      simpa using h p hp
    rw [if_neg (by omega)]

theorem mem_intent_scores {q : String} {x : String × ℚ} :
    x ∈ intent_scores q ↔
      ∃ p ∈ minecraft_context_patterns,
        0 < (p.2.countP fun kw => str_contains (lower_str q) kw) ∧
        x = (p.1, category_score q p.2) := by
  unfold intent_scores
  rw [List.mem_filterMap]
  constructor
  · rintro ⟨p, hp, hfp⟩
    by_cases hc : 0 < (p.2.countP fun kw => str_contains (lower_str q) kw)
    · rw [if_pos hc] at hfp
      exact ⟨p, hp, hc, (Option.some_inj.mp hfp).symm⟩
    · rw [if_neg hc] at hfp
      exact absurd hfp (by simp)
  · rintro ⟨p, hp, hc, hx⟩
    exact ⟨p, hp, by rw [if_pos hc, hx]⟩

theorem category_score_nonneg (q : String) (kws : List String) :
    0 ≤ category_score q kws := by
  unfold category_score
  positivity

theorem category_score_pos {q : String} {kws : List String}
    (h : 0 < (kws.countP fun kw => str_contains (lower_str q) kw)) :
    0 < category_score q kws := by
  have hlen : 0 < kws.length := lt_of_lt_of_le h (List.countP_le_length _)
  unfold category_score
  have h1 : (0 : ℚ) < ((kws.countP fun kw => str_contains (lower_str q) kw : ℕ) : ℚ) := by
    exact_mod_cast h
  have h2 : (0 : ℚ) < ((kws.length : ℕ) : ℚ) := by exact_mod_cast hlen
  exact div_pos h1 h2

/-- C8: Intent classification.  When no category keyword occurs in the
lowercased text, the result is `("general", 0.0)`; otherwise the returned
category is one of the configured categories, its confidence is that
category's keyword-count divided by its keyword-set size, it is positive, and
it is maximal among the per-category confidences. -/
theorem classify_query_intent_spec (q : String) :
    (no_category_matches q = true → classify_query_intent q = ("general", 0)) ∧
    (no_category_matches q = false →
      0 < (classify_query_intent q).2 ∧
      (∃ kws, ((classify_query_intent q).1, kws) ∈ minecraft_context_patterns ∧
        (classify_query_intent q).2 = category_score q kws) ∧
      ∀ p ∈ minecraft_context_patterns,
        category_score q p.2 ≤ (classify_query_intent q).2) := by
  constructor
  · intro h
    unfold classify_query_intent
    rw [(intent_scores_eq_nil q).mpr h]
  · intro h
    have hne : intent_scores q ≠ [] := by
      intro h0
      rw [(intent_scores_eq_nil q).mp h0] at h
      exact absurd h (by simp)
    obtain ⟨s, rest, hsr⟩ := List.exists_cons_of_ne_nil hne
    have hres : classify_query_intent q
        = rest.foldl (fun best q => if best.2 < q.2 then q else best) s := by
      unfold classify_query_intent
      rw [hsr]
    have hmem : classify_query_intent q ∈ intent_scores q := by
      rw [hres, hsr]
      exact foldl_pick_mem s rest
    obtain ⟨p, hp, hc, hx⟩ := mem_intent_scores.mp hmem
    have hconf : (classify_query_intent q).2 = category_score q p.2 := by
      rw [hx]
    have hcat : (classify_query_intent q).1 = p.1 := by
      rw [hx]
    refine ⟨?_, ⟨p.2, ?_, hconf⟩, ?_⟩
    · rw [hconf]
      exact category_score_pos hc
    · rw [hcat]
      exact hp
    · intro r hr
      by_cases hrc : 0 < (r.2.countP fun kw => str_contains (lower_str q) kw)
      · have hin : (r.1, category_score q r.2) ∈ intent_scores q :=
          mem_intent_scores.mpr ⟨r, hr, hrc, rfl⟩
        rw [hsr] at hin
        have := foldl_pick_ge s rest (r.1, category_score q r.2) hin
        rw [hres]
        exact this
      · have h0 : (r.2.countP fun kw => str_contains (lower_str q) kw) = 0 :=
          Nat.eq_zero_of_not_pos hrc
        have hz : category_score q r.2 = 0 := by
          unfold category_score
          rw [h0]
          simp
        rw [hz, hconf]
        exact le_of_lt (category_score_pos hc)

/-- C8 witness: on the concrete query `"fight the zombie"` some category
keyword matches, and the classifier returns the combat category with the
maximal confidence `2/11`. -/
theorem classify_query_intent_spec_witness :
    no_category_matches "fight the zombie" = false ∧
    (0 < (classify_query_intent "fight the zombie").2 ∧
      (∃ kws, ((classify_query_intent "fight the zombie").1, kws) ∈ minecraft_context_patterns ∧
        (classify_query_intent "fight the zombie").2 = category_score "fight the zombie" kws) ∧
      ∀ p ∈ minecraft_context_patterns,
        category_score "fight the zombie" p.2 ≤ (classify_query_intent "fight the zombie").2) :=
  ⟨by decide, (classify_query_intent_spec "fight the zombie").2 (by decide)⟩

/-! ### Relevance re-scoring (`MemoryManager._calculate_relevance_score`,
`memory_manipulation.py`) -/

/-- Python `str.strip()`: drop leading and trailing whitespace. -/
def trim_str (s : String) : String :=
  ⟨((s.data.dropWhile Char.isWhitespace).reverse.dropWhile Char.isWhitespace).reverse⟩

/-- Helper for Python `str.split()`: split on whitespace runs, dropping empty
pieces; `acc` holds the current in-progress word reversed. -/
def words_aux : List Char → List Char → List String
  | [], acc => if acc.isEmpty then [] else [⟨acc.reverse⟩]
  | c :: cs, acc =>
    if c.isWhitespace then
      (if acc.isEmpty then words_aux cs [] else ⟨acc.reverse⟩ :: words_aux cs [])
    else words_aux cs (c :: acc)

/-- Python `str.split()` with no separator argument. -/
def python_split (s : String) : List String := words_aux s.data []

/-- `len(set(keywords) & query_words)`: the number of distinct metadata
keywords that occur among the words of the lowercased query. -/
def keyword_matches (item : EmbItem) (query : String) : ℕ :=
  (item.metadata.keywords.dedup).countP fun kw => (python_split (lower_str query)).contains kw

/-- `MemoryManager._calculate_relevance_score(item, query, base_similarity)`:
start from the base cosine similarity; add `0.2` on an exact category match
(or `0.1` for a `decision_guide` chunk) when the classified intent is not
`general` and its confidence exceeds `0.3`; add `min(0.15, matches*0.05)` for
keyword overlap; add `0.05` for section level `≤ 2`; cap the result at `1.0`. -/
noncomputable def calculate_relevance_score
    (item : EmbItem) (query : String) (base_similarity : ℝ) : ℝ :=
  let qc := classify_query_intent query
  let chunk_type := item.metadata.chunk_type.getD "general_guide"
  let score1 : ℝ :=
    if qc.1 ≠ "general" ∧ (0.3 : ℚ) < qc.2 then
      (if chunk_type = qc.1 then base_similarity + 0.2
       else if chunk_type = "decision_guide" then base_similarity + 0.1
       else base_similarity)
    else base_similarity
  let km := keyword_matches item query
  let score2 : ℝ := if 0 < km then score1 + min (0.15 : ℝ) ((km : ℝ) * 0.05) else score1
  let score3 : ℝ := if item.metadata.section_level.getD 1 ≤ 2 then score2 + 0.05 else score2
  min score3 1

/-- The category-match boost described by the spec (`+0.2` on an exact intent
match above the confidence floor, `+0.1` for a decision guide), as a
standalone function of query and record, for comparison with the code. -/
def spec_category_boost (item : EmbItem) (query : String) : ℝ :=
  if (classify_query_intent query).1 ≠ "general" ∧ (0.3 : ℚ) < (classify_query_intent query).2 then
    (if item.metadata.chunk_type.getD "general_guide" = (classify_query_intent query).1 then 0.2
     else if item.metadata.chunk_type.getD "general_guide" = "decision_guide" then 0.1
     else 0)
  else 0

/-- The capped keyword-overlap boost described by the spec (`min(0.15,
matches*0.05)`), as a standalone function. -/
noncomputable def spec_keyword_boost (item : EmbItem) (query : String) : ℝ :=
  if 0 < keyword_matches item query then
    min (0.15 : ℝ) ((keyword_matches item query : ℝ) * 0.05)
  else 0

/-- The structural-level boost described by the spec (`+0.05` for top-level
sections), as a standalone function. -/
def spec_level_boost (item : EmbItem) : ℝ :=
  if item.metadata.section_level.getD 1 ≤ 2 then 0.05 else 0

/-- C9: Relevance re-scoring.  The final score is capped at `1.0`, equals the
base cosine similarity plus exactly the three bounded metadata boosts
(category match, capped keyword overlap, structural level), and — being a
plain function of `(item, query, base)` with no other arguments — is pure and
deterministic: identical inputs always yield the identical score. -/
theorem calculate_relevance_score_spec (item : EmbItem) (query : String) (base : ℝ) :
    calculate_relevance_score item query base ≤ 1 ∧
    calculate_relevance_score item query base
      = min (base + (spec_category_boost item query + spec_keyword_boost item query
          + spec_level_boost item)) 1 ∧
    (0 ≤ spec_category_boost item query ∧ spec_category_boost item query ≤ 0.2) ∧
    (0 ≤ spec_keyword_boost item query ∧ spec_keyword_boost item query ≤ 0.15) ∧
    (0 ≤ spec_level_boost item ∧ spec_level_boost item ≤ 0.05) := by
  refine ⟨?_, ?_, ⟨?_, ?_⟩, ⟨?_, ?_⟩, ⟨?_, ?_⟩⟩
  · simp only [calculate_relevance_score]
    exact min_le_right _ _
  · simp only [calculate_relevance_score, spec_category_boost, spec_keyword_boost,
      spec_level_boost]
    split_ifs <;> (congr 1; ring)
  · unfold spec_category_boost
    split_ifs <;> norm_num
  · unfold spec_category_boost
    split_ifs <;> norm_num
  · unfold spec_keyword_boost
    split_ifs with h
    · exact le_min (by norm_num) (by positivity)
    · exact le_refl 0
  · unfold spec_keyword_boost
    split_ifs with h
    · exact min_le_left _ _
    · norm_num
  · unfold spec_level_boost
    split_ifs <;> norm_num
  · unfold spec_level_boost
    split_ifs <;> norm_num

/-! ### Similarity search (`MemoryManager.search_embeddings`) -/

/-- A result row of `memory_manipulation.py`'s `search_embeddings`. -/
structure SearchResult where
  text : String
  similarity : ℝ
  relevance_score : ℝ
  metadata : Metadata
  timestamp : String
  source_type : String
  chunk_type : String
  context_path : String
  keywords : List String

/-- Descending order on final relevance score, the key of
`results.sort(key=lambda x: x["relevance_score"], reverse=True)`. -/
def scoreGe (a b : SearchResult) : Prop := b.relevance_score ≤ a.relevance_score

instance : IsTotal SearchResult scoreGe := ⟨fun a b => le_total b.relevance_score a.relevance_score⟩

instance : IsTrans SearchResult scoreGe := ⟨fun _ _ _ h1 h2 => le_trans h2 h1⟩

noncomputable instance : DecidableRel scoreGe :=
  fun a b => Real.decidableLE b.relevance_score a.relevance_score

/-- `MemoryManager.search_embeddings(query, k, include_base)` from
`memory_manipulation.py`.  `query_embedding` is the response of the external
embedding endpoint for `query` (`none` = failure).  Candidates are the daily
summaries plus, when `include_base`, the base knowledge; an empty candidate
pool or a failed query embedding returns `[]`; otherwise each candidate with
a non-empty vector is scored (cosine similarity, then relevance re-scoring),
the rows are sorted descending by relevance score — Python's sort is stable,
as is insertion sort on a total preorder — filtered to scores `> 0.3`, and
truncated to at most `k`. -/
noncomputable def search_embeddings (st : MMState) (query : String)
    (query_embedding : Option (List ℝ)) (k : ℕ) (include_base : Bool) :
    List SearchResult :=
  let all_embeddings := st.embeddings_data ++ (if include_base then st.base_embeddings else [])
  if all_embeddings.isEmpty then []
  else
    match query_embedding with
    | none => []
    | some qe =>
      let results := (all_embeddings.filter fun item => !item.embedding.isEmpty).map fun item =>
        let base_similarity := cosine_similarity qe item.embedding
        { text := item.text
          similarity := base_similarity
          relevance_score := calculate_relevance_score item query base_similarity
          metadata := item.metadata
          timestamp := item.timestamp
          source_type := item.metadata.source_type.getD "personal"
          chunk_type := item.metadata.chunk_type.getD "general"
          context_path := item.metadata.context_path.getD ""
          keywords := item.metadata.keywords }
      let sorted := List.insertionSort scoreGe results
      let filtered := sorted.filter fun r => decide ((0.3 : ℝ) < r.relevance_score)
      filtered.take k

/-- Membership in a sorted-filtered-truncated list traces back to the
original candidate list. -/
theorem mem_of_mem_sort_filter_take {α : Type} (r : α → α → Prop) [DecidableRel r]
    (p : α → Bool) (k : ℕ) (l : List α) (x : α)
    (hx : x ∈ ((List.insertionSort r l).filter p).take k) : x ∈ l := by
  have h1 : x ∈ (List.insertionSort r l).filter p :=
    List.Sublist.mem hx (List.take_sublist k _)
  have h2 : x ∈ List.insertionSort r l := (List.mem_filter.mp h1).1
  exact (List.perm_insertionSort r l).mem_iff.mp h2

theorem search_embeddings_shape (st : MMState) (query : String)
    (qe : Option (List ℝ)) (k : ℕ) (ib : Bool) :
    search_embeddings st query qe k ib = [] ∨
    ∃ results : List SearchResult,
      search_embeddings st query qe k ib
        = (((List.insertionSort scoreGe results).filter
            fun r => decide ((0.3 : ℝ) < r.relevance_score)).take k) := by
  simp only [search_embeddings]
  by_cases hE :
      (st.embeddings_data ++ (if ib then st.base_embeddings else [])).isEmpty = true
  · rw [if_pos hE]
    exact Or.inl rfl
  · rw [if_neg hE]
    cases qe with
    | none => exact Or.inl rfl
    | some v => exact Or.inr ⟨_, rfl⟩

theorem sort_filter_take_contract (results : List SearchResult) (k : ℕ) :
    ((((List.insertionSort scoreGe results).filter
        fun r => decide ((0.3 : ℝ) < r.relevance_score)).take k).length ≤ k) ∧
    List.Forall (fun r => (0.3 : ℝ) ≤ r.relevance_score)
      (((List.insertionSort scoreGe results).filter
        fun r => decide ((0.3 : ℝ) < r.relevance_score)).take k) ∧
    List.Pairwise scoreGe
      (((List.insertionSort scoreGe results).filter
        fun r => decide ((0.3 : ℝ) < r.relevance_score)).take k) := by
  refine ⟨?_, ?_, ?_⟩
  · rw [List.length_take]
    exact min_le_left _ _
  · rw [List.forall_iff_forall_mem]
    intro x hx
    have h1 := List.Sublist.mem hx (List.take_sublist k _)
    have h2 := (List.mem_filter.mp h1).2
    exact le_of_lt (of_decide_eq_true h2)
  · exact List.Pairwise.sublist (List.take_sublist k _)
      (List.Pairwise.filter _ (List.sorted_insertionSort scoreGe results))

/-- C3: Retrieval contract.  For every query, every `k`, every index contents
and every embedding-endpoint response, `search_embeddings` returns at most
`k` results, every returned final relevance score is at least the minimum
score `0.3` (the code keeps strictly greater scores, hence at least `0.3`),
and the results are sorted in descending order of final score. -/
theorem search_embeddings_retrieval_contract (st : MMState) (query : String)
    (query_embedding : Option (List ℝ)) (k : ℕ) (include_base : Bool) :
    ((search_embeddings st query query_embedding k include_base).length ≤ k) ∧
    List.Forall (fun r => (0.3 : ℝ) ≤ r.relevance_score)
      (search_embeddings st query query_embedding k include_base) ∧
    List.Pairwise scoreGe (search_embeddings st query query_embedding k include_base) := by
  rcases search_embeddings_shape st query query_embedding k include_base with h | ⟨results, h⟩
  · rw [h]
    exact ⟨Nat.zero_le k, List.forall_iff_forall_mem.mpr (by simp), List.Pairwise.nil⟩
  · rw [h]
    exact sort_filter_take_contract results k

theorem mem_search_embeddings_text {st : MMState} {query : String}
    {qe : Option (List ℝ)} {k : ℕ} {ib : Bool} {r : SearchResult}
    (hr : r ∈ search_embeddings st query qe k ib) :
    r.text ∈ (st.embeddings_data ++ (if ib then st.base_embeddings else [])).map EmbItem.text := by
  simp only [search_embeddings] at hr
  by_cases hE :
      (st.embeddings_data ++ (if ib then st.base_embeddings else [])).isEmpty = true
  · rw [if_pos hE] at hr
    exact absurd hr (List.not_mem_nil r)
  · rw [if_neg hE] at hr
    cases qe with
    | none => exact absurd hr (List.not_mem_nil r)
    | some v =>
      have h2 := mem_of_mem_sort_filter_take scoreGe _ k _ r hr
      obtain ⟨item, hitem, hfr⟩ := List.mem_map.mp h2
      have ht : r.text = item.text := by rw [← hfr]
      rw [ht]
      exact List.mem_map_of_mem EmbItem.text (List.mem_filter.mp hitem).1

namespace Mgr

/-- A result row of `memory_manager.py`'s `search_embeddings` (no relevance
re-scoring in this version). -/
structure SearchResult where
  text : String
  similarity : ℝ
  metadata : Metadata
  timestamp : String
  source_type : String

/-- Descending order on raw cosine similarity, the key of
`results.sort(key=lambda x: x["similarity"], reverse=True)`. -/
def simGe (a b : SearchResult) : Prop := b.similarity ≤ a.similarity

instance : IsTotal SearchResult simGe := ⟨fun a b => le_total b.similarity a.similarity⟩

instance : IsTrans SearchResult simGe := ⟨fun _ _ _ h1 h2 => le_trans h2 h1⟩

noncomputable instance : DecidableRel simGe :=
  fun a b => Real.decidableLE b.similarity a.similarity

/-- `MemoryManager.search_embeddings(query, k, include_base)` from
`memory_manager.py`: identical pipeline to the `memory_manipulation.py`
version but scored by raw cosine similarity only (no relevance re-scoring),
sorted descending by similarity, filtered to `> 0.3`, truncated to `k`. -/
noncomputable def search_embeddings (st : MMState)
    (query_embedding : Option (List ℝ)) (k : ℕ) (include_base : Bool) :
    List SearchResult :=
  let all_embeddings := st.embeddings_data ++ (if include_base then st.base_embeddings else [])
  if all_embeddings.isEmpty then []
  else
    match query_embedding with
    | none => []
    | some qe =>
      let results := (all_embeddings.filter fun item => !item.embedding.isEmpty).map fun item =>
        { text := item.text
          similarity := cosine_similarity qe item.embedding
          metadata := item.metadata
          timestamp := item.timestamp
          source_type := item.metadata.source_type.getD "personal" }
      let sorted := List.insertionSort simGe results
      let filtered := sorted.filter fun r => decide ((0.3 : ℝ) < r.similarity)
      filtered.take k

theorem mem_mgr_search_text {st : MMState} {qe : Option (List ℝ)}
    {k : ℕ} {ib : Bool} {r : SearchResult}
    (hr : r ∈ search_embeddings st qe k ib) :
    r.text ∈ (st.embeddings_data ++ (if ib then st.base_embeddings else [])).map EmbItem.text := by
  simp only [search_embeddings] at hr
  by_cases hE :
      (st.embeddings_data ++ (if ib then st.base_embeddings else [])).isEmpty = true
  · rw [if_pos hE] at hr
    exact absurd hr (List.not_mem_nil r)
  · rw [if_neg hE] at hr
    cases qe with
    | none => exact absurd hr (List.not_mem_nil r)
    | some v =>
      have h2 := mem_of_mem_sort_filter_take simGe _ k _ r hr
      obtain ⟨item, hitem, hfr⟩ := List.mem_map.mp h2
      have ht : r.text = item.text := by rw [← hfr]
      rw [ht]
      exact List.mem_map_of_mem EmbItem.text (List.mem_filter.mp hitem).1

end Mgr

/-- C4 counterexample: embedding failure is indistinguishable from "no
matches".  With a non-empty store and a failed query embedding, both
versions of `search_embeddings` return the plain empty list — the very value
they return for a genuinely empty store with a successful embedding — so no
typed failure is propagated. -/
theorem search_embeddings_failure_counterexample :
    search_embeddings
        { memory := [], embeddings_data := [{ text := "stored summary", embedding := [1, 0] }],
          base_embeddings := [] } "any query" none 5 true = [] ∧
    search_embeddings
        { memory := [], embeddings_data := [], base_embeddings := [] }
        "any query" (some [1, 0]) 5 true = [] ∧
    Mgr.search_embeddings
        { memory := [], embeddings_data := [{ text := "stored summary", embedding := [1, 0] }],
          base_embeddings := [] } none 5 true = [] ∧
    Mgr.search_embeddings
        { memory := [], embeddings_data := [], base_embeddings := [] }
        (some [1, 0]) 5 true = [] :=
  ⟨rfl, rfl, rfl, rfl⟩

/-- C4 (amended): when embedding the query fails, both versions of
`search_embeddings` log the error and return the empty list — the same value
as a no-match search — so callers cannot distinguish transport failure from
"no matches". -/
theorem search_embeddings_none_returns_empty :
    (∀ (st : MMState) (query : String) (k : ℕ) (ib : Bool),
      search_embeddings st query none k ib = []) ∧
    (∀ (st : MMState) (k : ℕ) (ib : Bool), Mgr.search_embeddings st none k ib = []) := by
  constructor
  · intro st query k ib
    simp only [search_embeddings]
    by_cases hE :
        (st.embeddings_data ++ (if ib then st.base_embeddings else [])).isEmpty = true
    · rw [if_pos hE]
    · rw [if_neg hE]
  · intro st k ib
    simp only [Mgr.search_embeddings]
    by_cases hE :
        (st.embeddings_data ++ (if ib then st.base_embeddings else [])).isEmpty = true
    · rw [if_pos hE]
    · rw [if_neg hE]

/-- C10: Provenance noninterference of filtered search.  With
`include_base = False`, both versions of `search_embeddings` give identical
results on two states differing only in the base-knowledge collection, and
every returned row's text is drawn from the daily-summary store. -/
theorem search_embeddings_base_noninterference (mem : List Entry)
    (ed b1 b2 : List EmbItem) (query : String) (qe : Option (List ℝ)) (k : ℕ) :
    search_embeddings ⟨mem, ed, b1⟩ query qe k false
      = search_embeddings ⟨mem, ed, b2⟩ query qe k false ∧
    Mgr.search_embeddings ⟨mem, ed, b1⟩ qe k false
      = Mgr.search_embeddings ⟨mem, ed, b2⟩ qe k false ∧
    List.Forall (fun r => r.text ∈ ed.map EmbItem.text)
      (search_embeddings ⟨mem, ed, b1⟩ query qe k false) ∧
    List.Forall (fun r => r.text ∈ ed.map EmbItem.text)
      (Mgr.search_embeddings ⟨mem, ed, b1⟩ qe k false) := by
  refine ⟨rfl, rfl, ?_, ?_⟩
  · rw [List.forall_iff_forall_mem]
    intro r hr
    simpa using mem_search_embeddings_text hr
  · rw [List.forall_iff_forall_mem]
    intro r hr
    simpa using Mgr.mem_mgr_search_text hr

/-! ### Validation and the archival pipeline
(`memory_manager.py`, `summarizer.py`) -/

/-- `MemoryManager._validate_enhanced_embedding_item`
(`memory_manipulation.py`) and `_validate_embedding_item`
(`memory_manager.py`) — identical bodies: the item must be a dict carrying
`text` and `embedding` (guaranteed by the typed model), with nonempty
stripped text and a nonempty embedding list.  No dimensionality check. -/
def validate_enhanced_embedding_item (item : EmbItem) : Bool :=
  decide (0 < (trim_str item.text).length) && !item.embedding.isEmpty

namespace Mgr

/-- The calendar date of an entry: `_parse_human_datetime(ts).date()`. -/
def entry_date (tp : String → Option Date) (today : Date) (e : Entry) : Date :=
  parse_human_datetime tp today e.timestamp

/-- `MemoryManager.get_current_day_entries()`: the entries whose parsed date
is `>= today`.  The per-entry `try/except ... continue` never fires because
`_parse_human_datetime` never raises, so no entry is ever dropped. -/
def get_current_day_entries (tp : String → Option Date) (today : Date)
    (st : MMState) : List Entry :=
  st.memory.filter fun e => decide (today ≤ entry_date tp today e)

/-- `MemoryManager.get_past_day_entries_for_summarization()`: the entries
whose parsed date is `< today`. -/
def get_past_day_entries_for_summarization (tp : String → Option Date)
    (today : Date) (st : MMState) : List Entry :=
  st.memory.filter fun e => decide (entry_date tp today e < today)

/-- `MemoryManager.remove_summarized_past_day_entries(num_entries_to_remove)`:
a no-op for non-positive counts; otherwise the conversation log is replaced
by only its current-day entries — independently of the count argument, which
is otherwise unused. -/
def remove_summarized_past_day_entries (tp : String → Option Date)
    (today : Date) (num_entries_to_remove : Int) (st : MMState) : MMState :=
  if num_entries_to_remove ≤ 0 then st
  else { st with memory := get_current_day_entries tp today st }

/-- `MemoryManager.add_summary_embedding(summary_text, metadata)`
(`memory_manager.py`): return unchanged on blank text; ask the embedding
endpoint and, on `None`, log and return with no state change; otherwise
append the summary record (with `entry_type` defaulted to `daily_summary`
and `created_by` stamped `summarizer`) and save. -/
def add_summary_embedding (embed : String → Option (List ℝ)) (now_ts : String)
    (st : MMState) (summary_text : String) (metadata : Metadata) : MMState :=
  if trim_str summary_text = "" then st
  else
    match embed summary_text with
    | none => st
    | some emb =>
      { st with embeddings_data := st.embeddings_data ++
          [{ text := summary_text, embedding := emb,
             metadata := { metadata with
               entry_type := some (metadata.entry_type.getD "daily_summary"),
               created_by := some "summarizer" },
             timestamp := now_ts }] }

end Mgr

namespace Summarizer

/-- Append an entry to its day's group in an insertion-ordered association
list (the Python dict in `_group_entries_by_day`). -/
def insert_group (d : Date) (e : Entry) :
    List (Date × List Entry) → List (Date × List Entry)
  | [] => [(d, [e])]
  | (d2, es) :: rest =>
    if d2 = d then (d2, es ++ [e]) :: rest else (d2, es) :: insert_group d e rest

/-- `summarizer._group_entries_by_day(entries)`: group entries by parsed
date in first-occurrence order, skipping entries dated `>= today`, then keep
only the days with at least 4 entries. -/
def group_entries_by_day (tp : String → Option Date) (today : Date)
    (entries : List Entry) : List (Date × List Entry) :=
  (entries.foldl (fun acc e =>
      if today ≤ parse_human_datetime tp today e.timestamp then acc
      else insert_group (parse_human_datetime tp today e.timestamp) e acc) []).filter
    fun p => decide (4 ≤ p.2.length)

/-- The metadata dict `summarize_memory` builds for a day's summary. -/
def daily_metadata (d : Date) (es : List Entry) (now_ts : String) : Metadata :=
  { entry_type := some "daily_conversation_summary"
    source_type := some "personal"
    conversation_date := some d
    entries_count := some es.length
    summary_date := some now_ts
    created_by := some "summarizer" }

/-- The per-day loop of `summarize_memory`: for each candidate day in group
order, obtain the day's summary from the external text-generation endpoint
(`_create_daily_conversation_summary`, modelled by `summarize`); when it is
usable (`if summary and summary.strip()`), insert the summary embedding and
count the day (`summaries_created`) and its entries (`entries_to_remove`);
otherwise skip the day and continue with the others. -/
def process_days (summarize : Date → List Entry → Option String)
    (embed : String → Option (List ℝ)) (now_ts : String) :
    List (Date × List Entry) → MMState → MMState × ℕ × ℕ
  | [], st => (st, 0, 0)
  | (d, es) :: rest, st =>
    match summarize d es with
    | none => process_days summarize embed now_ts rest st
    | some s =>
      if trim_str s = "" then process_days summarize embed now_ts rest st
      else
        let r := process_days summarize embed now_ts rest
          (Mgr.add_summary_embedding embed now_ts st s (daily_metadata d es now_ts))
        (r.1, r.2.1 + 1, r.2.2 + es.length)

/-- `summarizer.summarize_memory(memory_manager)`: collect past-day entries
(returning `False` when there are none or fewer than 2), group them by day
(returning `False` when no day qualifies), process each candidate day, and —
when at least one summary was created — call
`remove_summarized_past_day_entries(entries_to_remove)` and return `True`. -/
def summarize_memory (tp : String → Option Date) (today : Date)
    (summarize : Date → List Entry → Option String)
    (embed : String → Option (List ℝ)) (now_ts : String) (st : MMState) :
    MMState × Bool :=
  let past := Mgr.get_past_day_entries_for_summarization tp today st
  if past.length < 2 then (st, false)
  else
    let groups := group_entries_by_day tp today past
    if groups.isEmpty then (st, false)
    else
      let r := process_days summarize embed now_ts groups st
      if 0 < r.2.1 then
        (Mgr.remove_summarized_past_day_entries tp today (r.2.2 : Int) r.1, true)
      else (r.1, false)

end Summarizer

/-- C5 counterexample: validation accepts vectors of different
dimensionalities side by side, and the summary-insert path appends whatever
vector the embedding endpoint returns — here a 3-vector into a store whose
existing record holds a 2-vector — with no rejection. -/
theorem validate_accepts_mismatched_dimensions :
    validate_enhanced_embedding_item { text := "chunk a", embedding := [1, 2] } = true ∧
    validate_enhanced_embedding_item { text := "chunk b", embedding := [1, 2, 3] } = true ∧
    ([1, 2] : List ℝ).length ≠ ([1, 2, 3] : List ℝ).length ∧
    ((Mgr.add_summary_embedding (fun _ => some [1, 2, 3]) "ts"
        { memory := [], embeddings_data := [{ text := "old summary", embedding := [1, 2] }],
          base_embeddings := [] } "new summary" {}).embeddings_data.map
      fun it => it.embedding.length) = [2, 3] :=
  ⟨rfl, rfl, by decide, rfl⟩

/-- C5 (amended): item validation checks only that the stripped text is
nonempty and that the embedding is a nonempty list — two nonempty vectors of
any dimensionalities are treated identically, so mismatched dimensionality is
silently accepted, not rejected — and the summary-insert path performs no
dimensionality check at all: it appends exactly the vector the endpoint
returned. -/
theorem validate_ignores_dimensionality :
    (∀ (t : String) (md : Metadata) (ts : String) (e e2 : List ℝ),
      e ≠ [] → e2 ≠ [] →
      validate_enhanced_embedding_item
          { text := t, embedding := e, metadata := md, timestamp := ts }
        = validate_enhanced_embedding_item
          { text := t, embedding := e2, metadata := md, timestamp := ts }) ∧
    (∀ (st : MMState) (s : String) (v : List ℝ) (md : Metadata) (ts : String),
      trim_str s ≠ "" →
      (Mgr.add_summary_embedding (fun _ => some v) ts st s md).embeddings_data
        = st.embeddings_data ++
          [{ text := s, embedding := v,
             metadata := { md with
               entry_type := some (md.entry_type.getD "daily_summary"),
               created_by := some "summarizer" },
             timestamp := ts }]) := by
  constructor
  · intro t md ts e e2 he he2
    unfold validate_enhanced_embedding_item
    cases e with
    | nil => exact absurd rfl he
    | cons a as =>
      cases e2 with
      | nil => exact absurd rfl he2
      | cons b bs => rfl
  · intro st s v md ts hs
    unfold Mgr.add_summary_embedding
    rw [if_neg hs]

/-- C5 witness: the amended theorem applied at the concrete vectors `[1]`
and `[1, 2]` and at a concrete insert of a 1-vector. -/
theorem validate_ignores_dimensionality_witness :
    (([1] : List ℝ) ≠ [] ∧ ([1, 2] : List ℝ) ≠ [] ∧
      validate_enhanced_embedding_item
          { text := "t", embedding := ([1] : List ℝ), metadata := {}, timestamp := "" }
        = validate_enhanced_embedding_item
          { text := "t", embedding := ([1, 2] : List ℝ), metadata := {}, timestamp := "" }) ∧
    (trim_str "hello" ≠ "" ∧
      (Mgr.add_summary_embedding (fun _ => some [(1 : ℝ)]) "ts"
          { memory := [], embeddings_data := [], base_embeddings := [] } "hello"
          {}).embeddings_data
        = ([] : List EmbItem) ++
          [{ text := "hello", embedding := [(1 : ℝ)],
             metadata := { ({} : Metadata) with
               entry_type := some ((({} : Metadata).entry_type).getD "daily_summary"),
               created_by := some "summarizer" },
             timestamp := "ts" }]) :=
  ⟨⟨List.cons_ne_nil _ _, List.cons_ne_nil _ _,
      validate_ignores_dimensionality.1 "t" {} "" [1] [1, 2]
        (List.cons_ne_nil _ _) (List.cons_ne_nil _ _)⟩,
    ⟨by decide,
      validate_ignores_dimensionality.2
        { memory := [], embeddings_data := [], base_embeddings := [] }
        "hello" [(1 : ℝ)] {} "ts" (by decide)⟩⟩

theorem length_filter_partition {α : Type} (p : α → Bool) (l : List α) :
    (l.filter p).length + (l.filter fun a => !p a).length = l.length := by
  induction l with
  | nil => simp
  | cons x xs ih =>
    cases hx : p x <;> simp [List.filter_cons, hx] <;> omega

/-- A parse stub on which every timestamp string fails all formats. -/
def tp_none : String → Option Date := fun _ => none

/-- C6 counterexample: a record whose timestamp matches no format is not
dropped.  `_parse_human_datetime` silently substitutes the current time
(`today = 10`), so `get_current_day_entries` keeps the malformed record and
buckets it as a current-day entry. -/
theorem malformed_timestamp_not_dropped :
    parse_human_datetime tp_none 10 "not a timestamp" = 10 ∧
    Mgr.get_current_day_entries tp_none 10
        { memory := [{ role := "user", content := "hello", timestamp := "not a timestamp" }],
          embeddings_data := [], base_embeddings := [] }
      = [{ role := "user", content := "hello", timestamp := "not a timestamp" }] :=
  ⟨rfl, rfl⟩

/-- C6 (amended): a malformed timestamp produces no typed failure and no
dropped record: `_parse_human_datetime` substitutes the current time on
total parse failure, and day-bucketing keeps every record — the current-day
and past-day selections always partition the whole log. -/
theorem parse_fallback_no_drop :
    (∀ (tp : String → Option Date) (now : Date) (s : String),
      tp s = none → parse_human_datetime tp now s = now) ∧
    (∀ (tp : String → Option Date) (today : Date) (st : MMState),
      (Mgr.get_current_day_entries tp today st).length
        + (Mgr.get_past_day_entries_for_summarization tp today st).length
        = st.memory.length) := by
  constructor
  · intro tp now s h
    unfold parse_human_datetime
    rw [h]
    rfl
  · intro tp today st
    unfold Mgr.get_current_day_entries Mgr.get_past_day_entries_for_summarization
    have hpt : ∀ e ∈ st.memory,
        (decide (Mgr.entry_date tp today e < today))
          = !(decide (today ≤ Mgr.entry_date tp today e)) := by
      intro e _
      rw [← decide_not]
      exact decide_eq_decide.mpr not_le.symm
    rw [List.filter_congr hpt]
    exact length_filter_partition _ st.memory

/-- C6 witness: the fallback theorem applied at a concrete unparseable
string, discharging the parse-failure hypothesis. -/
theorem parse_fallback_no_drop_witness :
    tp_none "garbage value" = none ∧
    parse_human_datetime tp_none 7 "garbage value" = 7 :=
  ⟨rfl, parse_fallback_no_drop.1 tp_none 7 "garbage value" rfl⟩

theorem add_summary_embedding_memory (embed : String → Option (List ℝ))
    (ts : String) (st : MMState) (s : String) (md : Metadata) :
    (Mgr.add_summary_embedding embed ts st s md).memory = st.memory := by
  unfold Mgr.add_summary_embedding
  split_ifs with h
  · rfl
  · cases embed s with
    | none => rfl
    | some v => rfl

theorem add_summary_embedding_mono (embed : String → Option (List ℝ))
    (ts : String) (st : MMState) (s : String) (md : Metadata) (r0 : EmbItem)
    (h : r0 ∈ st.embeddings_data) :
    r0 ∈ (Mgr.add_summary_embedding embed ts st s md).embeddings_data := by
  unfold Mgr.add_summary_embedding
  split_ifs with hs
  · exact h
  · cases embed s with
    | none => exact h
    | some v => exact List.mem_append_left _ h

theorem add_summary_embedding_mem_new (embed : String → Option (List ℝ))
    (ts : String) (st : MMState) (s : String) (md : Metadata) (v : List ℝ)
    (hs : trim_str s ≠ "") (he : embed s = some v) :
    ∃ r0 ∈ (Mgr.add_summary_embedding embed ts st s md).embeddings_data,
      r0.metadata.conversation_date = md.conversation_date := by
  unfold Mgr.add_summary_embedding
  rw [if_neg hs, he]
  exact ⟨_, List.mem_append_right _ (List.mem_singleton_self _), rfl⟩

namespace Summarizer

theorem process_days_cons_none (f : Date → List Entry → Option String)
    (embed : String → Option (List ℝ)) (ts : String) (d : Date) (es : List Entry)
    (rest : List (Date × List Entry)) (st : MMState) (hf : f d es = none) :
    process_days f embed ts ((d, es) :: rest) st = process_days f embed ts rest st := by
  simp only [process_days, hf]

theorem process_days_cons_blank (f : Date → List Entry → Option String)
    (embed : String → Option (List ℝ)) (ts : String) (d : Date) (es : List Entry)
    (rest : List (Date × List Entry)) (st : MMState) (s : String)
    (hf : f d es = some s) (hs : trim_str s = "") :
    process_days f embed ts ((d, es) :: rest) st = process_days f embed ts rest st := by
  simp only [process_days, hf]
  rw [if_pos hs]

theorem process_days_cons_commit (f : Date → List Entry → Option String)
    (embed : String → Option (List ℝ)) (ts : String) (d : Date) (es : List Entry)
    (rest : List (Date × List Entry)) (st : MMState) (s : String)
    (hf : f d es = some s) (hs : trim_str s ≠ "") :
    process_days f embed ts ((d, es) :: rest) st
      = ((process_days f embed ts rest
            (Mgr.add_summary_embedding embed ts st s (daily_metadata d es ts))).1,
         (process_days f embed ts rest
            (Mgr.add_summary_embedding embed ts st s (daily_metadata d es ts))).2.1 + 1,
         (process_days f embed ts rest
            (Mgr.add_summary_embedding embed ts st s (daily_metadata d es ts))).2.2
           + es.length) := by
  simp only [process_days, hf]
  rw [if_neg hs]

theorem process_days_memory (f : Date → List Entry → Option String)
    (embed : String → Option (List ℝ)) (ts : String) :
    ∀ (gs : List (Date × List Entry)) (st : MMState),
      (process_days f embed ts gs st).1.memory = st.memory := by
  intro gs
  induction gs with
  | nil => intro st; rfl
  | cons g rest ih =>
    intro st
    obtain ⟨d, es⟩ := g
    cases hfd : f d es with
    | none =>
      rw [process_days_cons_none f embed ts d es rest st hfd]
      exact ih st
    | some s =>
      by_cases hs : trim_str s = ""
      · rw [process_days_cons_blank f embed ts d es rest st s hfd hs]
        exact ih st
      · rw [process_days_cons_commit f embed ts d es rest st s hfd hs]
        show (process_days f embed ts rest
          (Mgr.add_summary_embedding embed ts st s (daily_metadata d es ts))).1.memory
            = st.memory
        rw [ih, add_summary_embedding_memory]

theorem process_days_embeddings_mono (f : Date → List Entry → Option String)
    (embed : String → Option (List ℝ)) (ts : String) :
    ∀ (gs : List (Date × List Entry)) (st : MMState) (r0 : EmbItem),
      r0 ∈ st.embeddings_data →
      r0 ∈ (process_days f embed ts gs st).1.embeddings_data := by
  intro gs
  induction gs with
  | nil => intro st r0 h; exact h
  | cons g rest ih =>
    intro st r0 h
    obtain ⟨d, es⟩ := g
    cases hfd : f d es with
    | none =>
      rw [process_days_cons_none f embed ts d es rest st hfd]
      exact ih st r0 h
    | some s =>
      by_cases hs : trim_str s = ""
      · rw [process_days_cons_blank f embed ts d es rest st s hfd hs]
        exact ih st r0 h
      · rw [process_days_cons_commit f embed ts d es rest st s hfd hs]
        show r0 ∈ (process_days f embed ts rest
          (Mgr.add_summary_embedding embed ts st s (daily_metadata d es ts))).1.embeddings_data
        exact ih _ r0 (add_summary_embedding_mono embed ts st s _ r0 h)

theorem process_days_commits (f : Date → List Entry → Option String)
    (embed : String → Option (List ℝ)) (ts : String) :
    ∀ (gs : List (Date × List Entry)) (st : MMState) (D : Date) (es : List Entry)
      (s : String),
      (D, es) ∈ gs → f D es = some s → trim_str s ≠ "" → (embed s).isSome = true →
      (∃ r0 ∈ (process_days f embed ts gs st).1.embeddings_data,
        r0.metadata.conversation_date = some D) ∧
      0 < (process_days f embed ts gs st).2.1 ∧
      es.length ≤ (process_days f embed ts gs st).2.2 := by
  intro gs
  induction gs with
  | nil =>
    intro st D es s hmem
    exact absurd hmem (List.not_mem_nil _)
  | cons g rest ih =>
    intro st D es s hmem hf hs he
    obtain ⟨d, ges⟩ := g
    rcases List.mem_cons.mp hmem with heq | htail
    · injection heq with hd hes
      subst hd
      subst hes
      obtain ⟨v, hv⟩ := Option.isSome_iff_exists.mp he
      rw [process_days_cons_commit f embed ts D es rest st s hf hs]
      obtain ⟨r0, hr0mem, hr0cd⟩ :=
        add_summary_embedding_mem_new embed ts st s (daily_metadata D es ts) v hs hv
      refine ⟨⟨r0, ?_, ?_⟩, ?_, ?_⟩
      · show r0 ∈ (process_days f embed ts rest
          (Mgr.add_summary_embedding embed ts st s (daily_metadata D es ts))).1.embeddings_data
        exact process_days_embeddings_mono f embed ts rest _ r0 hr0mem
      · rw [hr0cd]
        rfl
      · show 0 < (process_days f embed ts rest
          (Mgr.add_summary_embedding embed ts st s (daily_metadata D es ts))).2.1 + 1
        omega
      · show es.length ≤ (process_days f embed ts rest
          (Mgr.add_summary_embedding embed ts st s (daily_metadata D es ts))).2.2 + es.length
        omega
    · cases hfd : f d ges with
      | none =>
        rw [process_days_cons_none f embed ts d ges rest st hfd]
        exact ih st D es s htail hf hs he
      | some s2 =>
        by_cases hs2 : trim_str s2 = ""
        · rw [process_days_cons_blank f embed ts d ges rest st s2 hfd hs2]
          exact ih st D es s htail hf hs he
        · rw [process_days_cons_commit f embed ts d ges rest st s2 hfd hs2]
          have hih := ih (Mgr.add_summary_embedding embed ts st s2 (daily_metadata d ges ts))
            D es s htail hf hs he
          refine ⟨hih.1, ?_, ?_⟩
          · show 0 < (process_days f embed ts rest
              (Mgr.add_summary_embedding embed ts st s2 (daily_metadata d ges ts))).2.1 + 1
            omega
          · show es.length ≤ (process_days f embed ts rest
              (Mgr.add_summary_embedding embed ts st s2 (daily_metadata d ges ts))).2.2
                + ges.length
            have := hih.2.2
            omega

end Summarizer

namespace Summarizer

theorem insert_group_fst (d : Date) (e : Entry) :
    ∀ (acc : List (Date × List Entry)) (p : Date × List Entry),
      p ∈ insert_group d e acc → p.1 = d ∨ ∃ q ∈ acc, p.1 = q.1 := by
  intro acc
  induction acc with
  | nil =>
    intro p hp
    simp only [insert_group, List.mem_singleton] at hp
    left
    rw [hp]
  | cons q rest ih =>
    intro p hp
    obtain ⟨d2, es⟩ := q
    simp only [insert_group] at hp
    by_cases hd : d2 = d
    · rw [if_pos hd] at hp
      rcases List.mem_cons.mp hp with h1 | h1
      · left
        rw [h1, hd]
      · right
        exact ⟨p, List.mem_cons_of_mem _ h1, rfl⟩
    · rw [if_neg hd] at hp
      rcases List.mem_cons.mp hp with h1 | h1
      · right
        exact ⟨(d2, es), List.mem_cons_self _ _, by rw [h1]⟩
      · rcases ih p h1 with h2 | ⟨q2, hq2, h2⟩
        · left
          exact h2
        · right
          exact ⟨q2, List.mem_cons_of_mem _ hq2, h2⟩

theorem insert_group_total (d : Date) (e : Entry) :
    ∀ (acc : List (Date × List Entry)),
      ((insert_group d e acc).map fun p => p.2.length).sum
        = ((acc.map fun p => p.2.length).sum) + 1 := by
  intro acc
  induction acc with
  | nil => simp [insert_group]
  | cons q rest ih =>
    obtain ⟨d2, es⟩ := q
    simp only [insert_group]
    by_cases hd : d2 = d
    · rw [if_pos hd]
      simp only [List.map_cons, List.sum_cons, List.length_append,
        List.length_cons, List.length_nil]
      omega
    · rw [if_neg hd]
      simp only [List.map_cons, List.sum_cons, ih]
      omega

theorem group_foldl_dates_lt (tp : String → Option Date) (today : Date) :
    ∀ (entries : List Entry) (acc : List (Date × List Entry)),
      (∀ q ∈ acc, q.1 < today) →
      ∀ p ∈ entries.foldl (fun acc2 e =>
          if today ≤ parse_human_datetime tp today e.timestamp then acc2
          else insert_group (parse_human_datetime tp today e.timestamp) e acc2) acc,
        p.1 < today := by
  intro entries
  induction entries with
  | nil =>
    intro acc hacc p hp
    exact hacc p hp
  | cons e rest ih =>
    intro acc hacc p hp
    rw [List.foldl_cons] at hp
    by_cases hc : today ≤ parse_human_datetime tp today e.timestamp
    · rw [if_pos hc] at hp
      exact ih acc hacc p hp
    · rw [if_neg hc] at hp
      refine ih _ ?_ p hp
      intro q hq
      rcases insert_group_fst _ _ _ q hq with h1 | ⟨q2, hq2, h1⟩
      · rw [h1]
        exact not_le.mp hc
      · rw [h1]
        exact hacc q2 hq2

theorem group_foldl_total (tp : String → Option Date) (today : Date) :
    ∀ (entries : List Entry) (acc : List (Date × List Entry)),
      (((entries.foldl (fun acc2 e =>
          if today ≤ parse_human_datetime tp today e.timestamp then acc2
          else insert_group (parse_human_datetime tp today e.timestamp) e acc2) acc).map
        fun p => p.2.length).sum)
        ≤ ((acc.map fun p => p.2.length).sum) + entries.length := by
  intro entries
  induction entries with
  | nil =>
    intro acc
    simp
  | cons e rest ih =>
    intro acc
    rw [List.foldl_cons]
    by_cases hc : today ≤ parse_human_datetime tp today e.timestamp
    · rw [if_pos hc]
      have := ih acc
      simp only [List.length_cons]
      omega
    · rw [if_neg hc]
      have h2 := ih (insert_group (parse_human_datetime tp today e.timestamp) e acc)
      rw [insert_group_total] at h2
      simp only [List.length_cons]
      omega

theorem mem_le_total :
    ∀ (gs : List (Date × List Entry)) (p : Date × List Entry), p ∈ gs →
      p.2.length ≤ (gs.map fun q => q.2.length).sum := by
  intro gs
  induction gs with
  | nil =>
    intro p hp
    exact absurd hp (List.not_mem_nil _)
  | cons g rest ih =>
    intro p hp
    simp only [List.map_cons, List.sum_cons]
    rcases List.mem_cons.mp hp with h1 | h1
    · rw [h1]
      omega
    · have := ih p h1
      omega

theorem group_entries_by_day_facts (tp : String → Option Date) (today : Date)
    (entries : List Entry) (D : Date) (es : List Entry)
    (h : (D, es) ∈ group_entries_by_day tp today entries) :
    4 ≤ es.length ∧ es.length ≤ entries.length ∧ D < today := by
  unfold group_entries_by_day at h
  have h1 := List.mem_filter.mp h
  have h4 : 4 ≤ es.length := by simpa using of_decide_eq_true h1.2
  refine ⟨h4, ?_, ?_⟩
  · have htot := group_foldl_total tp today entries []
    simp only [List.map_nil, List.sum_nil, Nat.zero_add] at htot
    exact le_trans (mem_le_total _ (D, es) h1.1) htot
  · exact group_foldl_dates_lt tp today entries []
      (fun q hq => absurd hq (List.not_mem_nil _)) (D, es) h1.1

end Summarizer

theorem remove_embeddings_eq (tp : String → Option Date) (today : Date)
    (n : Int) (st : MMState) :
    (Mgr.remove_summarized_past_day_entries tp today n st).embeddings_data
      = st.embeddings_data := by
  unfold Mgr.remove_summarized_past_day_entries
  split_ifs <;> rfl

theorem remove_memory_pos (tp : String → Option Date) (today : Date)
    (n : Int) (st : MMState) (h : ¬n ≤ 0) :
    (Mgr.remove_summarized_past_day_entries tp today n st).memory
      = st.memory.filter fun e => decide (today ≤ Mgr.entry_date tp today e) := by
  unfold Mgr.remove_summarized_past_day_entries
  rw [if_neg h]
  rfl

theorem summarize_memory_run (tp : String → Option Date) (today : Date)
    (f : Date → List Entry → Option String) (embed : String → Option (List ℝ))
    (ts : String) (st : MMState)
    (hp2 : ¬(Mgr.get_past_day_entries_for_summarization tp today st).length < 2)
    (hgE : ¬(Summarizer.group_entries_by_day tp today
      (Mgr.get_past_day_entries_for_summarization tp today st)).isEmpty = true)
    (hc : 0 < (Summarizer.process_days f embed ts
      (Summarizer.group_entries_by_day tp today
        (Mgr.get_past_day_entries_for_summarization tp today st)) st).2.1) :
    Summarizer.summarize_memory tp today f embed ts st
      = (Mgr.remove_summarized_past_day_entries tp today
          ((Summarizer.process_days f embed ts
            (Summarizer.group_entries_by_day tp today
              (Mgr.get_past_day_entries_for_summarization tp today st)) st).2.2 : Int)
          (Summarizer.process_days f embed ts
            (Summarizer.group_entries_by_day tp today
              (Mgr.get_past_day_entries_for_summarization tp today st)) st).1,
        true) := by
  simp only [Summarizer.summarize_memory]
  rw [if_neg hp2, if_neg hgE, if_pos hc]

/-- C1: Day exclusivity invariant.  After a completed `summarize_memory`
cycle, for every past date `D` that was successfully processed in that cycle
(its day group was a candidate, the generated summary was usable, and the
embedding insert succeeded), a SummaryRecord tagged with `D` exists in the
embedding store and no raw conversation entries dated `D` remain in the log —
exactly one of the two holds, never both, never neither. -/
theorem summarize_memory_day_exclusivity (tp : String → Option Date)
    (today : Date) (summarize : Date → List Entry → Option String)
    (embed : String → Option (List ℝ)) (now_ts : String) (st : MMState)
    (D : Date) (es : List Entry) (s : String)
    (hmem : (D, es) ∈ Summarizer.group_entries_by_day tp today
      (Mgr.get_past_day_entries_for_summarization tp today st))
    (hsum : summarize D es = some s)
    (hne : trim_str s ≠ "")
    (hemb : (embed s).isSome = true) :
    (∃ r0 ∈ (Summarizer.summarize_memory tp today summarize embed now_ts st).1.embeddings_data,
        r0.metadata.conversation_date = some D) ∧
    (Summarizer.summarize_memory tp today summarize embed now_ts st).1.memory.filter
        (fun e => decide (Mgr.entry_date tp today e = D)) = [] := by
  obtain ⟨h4, hlen, hDlt⟩ :=
    Summarizer.group_entries_by_day_facts tp today _ D es hmem
  obtain ⟨hex, hcreated, hremove⟩ :=
    Summarizer.process_days_commits summarize embed now_ts
      (Summarizer.group_entries_by_day tp today
        (Mgr.get_past_day_entries_for_summarization tp today st)) st D es s hmem hsum hne hemb
  have hp2 : ¬(Mgr.get_past_day_entries_for_summarization tp today st).length < 2 := by
    omega
  have hgE : ¬(Summarizer.group_entries_by_day tp today
      (Mgr.get_past_day_entries_for_summarization tp today st)).isEmpty = true := by
    intro h0
    rw [List.isEmpty_iff.mp h0] at hmem
    exact absurd hmem (List.not_mem_nil _)
  rw [summarize_memory_run tp today summarize embed now_ts st hp2 hgE hcreated]
  constructor
  · obtain ⟨r0, hr0, hcd⟩ := hex
    refine ⟨r0, ?_, hcd⟩
    show r0 ∈ (Mgr.remove_summarized_past_day_entries tp today _ _).embeddings_data
    rw [remove_embeddings_eq]
    exact hr0
  · have h22 : 0 < (Summarizer.process_days summarize embed now_ts
        (Summarizer.group_entries_by_day tp today
          (Mgr.get_past_day_entries_for_summarization tp today st)) st).2.2 :=
      lt_of_lt_of_le (by omega : 0 < es.length) hremove
    have hn : ¬(((Summarizer.process_days summarize embed now_ts
        (Summarizer.group_entries_by_day tp today
          (Mgr.get_past_day_entries_for_summarization tp today st)) st).2.2 : Int) ≤ 0) :=
      not_le.mpr (Int.natCast_pos.mpr h22)
    show (Mgr.remove_summarized_past_day_entries tp today _ _).memory.filter _ = []
    rw [remove_memory_pos _ _ _ _ hn, Summarizer.process_days_memory,
      List.filter_filter]
    refine List.filter_eq_nil_iff.mpr ?_
    intro a _
    simp only [Bool.and_eq_true, decide_eq_true_eq]
    rintro ⟨hda, hta⟩
    rw [hda] at hta
    exact absurd hta (not_le.mpr hDlt)

/-- Concrete single-day scenario for the day-exclusivity witness: four
entries dated day 9, today = day 10, a generator and an embedder that both
succeed. -/
def c1_tp : String → Option Date := fun s => if s = "day9" then some 9 else none

def c1_entries : List Entry :=
  [{ role := "user", content := "a", timestamp := "day9" },
   { role := "assistant", content := "b", timestamp := "day9" },
   { role := "user", content := "c", timestamp := "day9" },
   { role := "assistant", content := "d", timestamp := "day9" }]

def c1_state : MMState :=
  { memory := c1_entries, embeddings_data := [], base_embeddings := [] }

def c1_summarize : Date → List Entry → Option String := fun _ _ => some "day nine summary"

def c1_embed : String → Option (List ℝ) := fun _ => some []

/-- C1 witness: the day-exclusivity theorem applied to the concrete one-day
scenario, discharging every hypothesis at day `D = 9`. -/
theorem summarize_memory_day_exclusivity_witness :
    ((9 : Date), c1_entries) ∈ Summarizer.group_entries_by_day c1_tp 10
        (Mgr.get_past_day_entries_for_summarization c1_tp 10 c1_state) ∧
    c1_summarize 9 c1_entries = some "day nine summary" ∧
    trim_str "day nine summary" ≠ "" ∧
    (c1_embed "day nine summary").isSome = true ∧
    ((∃ r0 ∈ (Summarizer.summarize_memory c1_tp 10 c1_summarize c1_embed "ts"
          c1_state).1.embeddings_data,
        r0.metadata.conversation_date = some 9) ∧
      (Summarizer.summarize_memory c1_tp 10 c1_summarize c1_embed "ts" c1_state).1.memory.filter
        (fun e => decide (Mgr.entry_date c1_tp 10 e = 9)) = []) :=
  ⟨by decide, rfl, by decide, rfl,
    summarize_memory_day_exclusivity c1_tp 10 c1_summarize c1_embed "ts" c1_state 9 c1_entries
      "day nine summary" (by decide) rfl (by decide) rfl⟩

/-- Two past days, today = day 10: day 8's summary generation fails, day 9's
succeeds. -/
def c2_tp : String → Option Date :=
  fun s => if s = "day8" then some 8 else if s = "day9" then some 9 else none

def c2_day8_entries : List Entry :=
  [{ role := "user", content := "w", timestamp := "day8" },
   { role := "assistant", content := "x", timestamp := "day8" },
   { role := "user", content := "y", timestamp := "day8" },
   { role := "assistant", content := "z", timestamp := "day8" }]

def c2_day9_entries : List Entry :=
  [{ role := "user", content := "p", timestamp := "day9" },
   { role := "assistant", content := "q", timestamp := "day9" },
   { role := "user", content := "r", timestamp := "day9" },
   { role := "assistant", content := "t", timestamp := "day9" }]

def c2_state : MMState :=
  { memory := c2_day8_entries ++ c2_day9_entries, embeddings_data := [], base_embeddings := [] }

def c2_summarize : Date → List Entry → Option String :=
  fun d _ => if d = 9 then some "day nine went well" else none

def c2_embed : String → Option (List ℝ) := fun _ => some []

/-- C2: the code prunes a day whose summarization failed.  In the concrete
two-day scenario (day 8's text-generation call fails, day 9 commits), the
completed cycle leaves no SummaryRecord for day 8 yet deletes all four of day
8's raw entries: `remove_summarized_past_day_entries` ignores its count
argument and keeps only current-day entries, so pruning happens without a
prior successful insert for that day, contradicting both the claim and the
function's own docstring. -/
theorem summarize_memory_prunes_unsummarized_day :
    ((Summarizer.summarize_memory c2_tp 10 c2_summarize c2_embed "ts"
        c2_state).1.embeddings_data.all
      fun r0 => !(r0.metadata.conversation_date == some 8)) = true ∧
    (Summarizer.summarize_memory c2_tp 10 c2_summarize c2_embed "ts" c2_state).1.memory.filter
        (fun e => decide (Mgr.entry_date c2_tp 10 e = 8)) = [] ∧
    (c2_state.memory.filter fun e => decide (Mgr.entry_date c2_tp 10 e = 8))
      = c2_day8_entries ∧
    (Summarizer.summarize_memory c2_tp 10 c2_summarize c2_embed "ts" c2_state).2 = true :=
  ⟨by decide, by decide, by decide, by decide⟩
